import Mathlib

/-!
# Verification of the Tarkov raid kill-list extraction pipeline

Shallow embedding of the text-processing core of `process_tarkov_raid.py`:
`parse_timestamp`, `fuzzy_match` (difflib `SequenceMatcher.ratio`),
`clean_ocr_line` and `parse_kill_list`.  Strings are modelled as `List Char`;
fallible Python operations (`int` conversion, tuple unpacking, list indexing)
return `Option`.
-/

set_option autoImplicit false

namespace Autoclipper

/-- ASCII whitespace recognised by Python `str.strip` / no-argument `str.split`
(restricted to the ASCII range; the strings this program handles are ASCII). -/
def isPySpace (c : Char) : Bool :=
  c = ' ' || c = '\t' || c = '\n' || c = '\x0d' || c = '\x0b' || c = '\x0c'

/-- Line-boundary characters recognised by Python `str.splitlines`
(besides the two-character boundary CR LF, handled separately). -/
def isLineBreak (c : Char) : Bool :=
  c = '\n' || c = '\x0d' || c = '\x0b' || c = '\x0c' ||
  c = '\x1c' || c = '\x1d' || c = '\x1e' || c = '\x85' ||
  c = '\u2028' || c = '\u2029'

/-- Worker for `str.splitlines()`, carrying the (reversed) current line. -/
def splitlinesAux (acc : List Char) : List Char → List (List Char)
  | [] => if acc.isEmpty then [] else [acc.reverse]
  | '\x0d' :: '\n' :: rest => acc.reverse :: splitlinesAux [] rest
  | c :: rest =>
      if isLineBreak c then acc.reverse :: splitlinesAux [] rest
      else splitlinesAux (c :: acc) rest

/-- Python `str.splitlines()` (without keepends). -/
def pySplitlines (s : List Char) : List (List Char) :=
  splitlinesAux [] s

/-- No-argument `str.split()`: split on runs of whitespace, no empty fields;
worker carrying the (reversed) current field. -/
def splitAux (acc : List Char) : List Char → List (List Char)
  | [] => if acc.isEmpty then [] else [acc.reverse]
  | c :: rest =>
      if isPySpace c then
        if acc.isEmpty then splitAux [] rest
        else acc.reverse :: splitAux [] rest
      else splitAux (c :: acc) rest

/-- Python no-argument `str.split()`. -/
def pySplit (s : List Char) : List (List Char) :=
  splitAux [] s

/-- Worker for `str.split(sep)` with a one-character separator: split at
every occurrence,
keeping empty fields; worker carrying the (reversed) current field. -/
def splitOnAux (sep : Char) (acc : List Char) : List Char → List (List Char)
  | [] => [acc.reverse]
  | c :: rest =>
      if c = sep then acc.reverse :: splitOnAux sep [] rest
      else splitOnAux sep (c :: acc) rest

/-- Python `str.split(sep)` with a one-character separator. -/
def pySplitOn (sep : Char) (s : List Char) : List (List Char) :=
  splitOnAux sep [] s

/-- Leading-whitespace removal (the left half of `str.strip()`). -/
def lstrip : List Char → List Char
  | [] => []
  | c :: rest => if isPySpace c then lstrip rest else c :: rest

/-- Trailing-whitespace removal (the right half of `str.strip()`). -/
def rstrip : List Char → List Char
  | [] => []
  | c :: rest =>
      match rstrip rest with
      | [] => if isPySpace c then [] else [c]
      | r => c :: r

/-- Python `str.strip()`. -/
def pyStrip (s : List Char) : List Char :=
  rstrip (lstrip s)

/-- Python `str.replace(a, b)` for one-character arguments: replace every
occurrence. -/
def replaceChar (a b : Char) (s : List Char) : List Char :=
  s.map fun c => if c = a then b else c

/-- The step `line.replace("â€”", "-")` of `clean_ocr_line`: the three-character
mojibake sequence U+00E2 U+20AC U+201D is replaced, left to right and
non-overlapping, by a single hyphen. -/
def replaceEmdash : List Char → List Char
  | 'â' :: '€' :: '”' :: rest => '-' :: replaceEmdash rest
  | c :: rest => c :: replaceEmdash rest
  | [] => []

/-- The character class kept by `re.sub(r'[^a-zA-Z0-9 :.,\-]', '', line)`:
ASCII letters, digits, space, colon, period, comma, hyphen. -/
def allowedChar (c : Char) : Bool :=
  ('a' ≤ c && c ≤ 'z') || ('A' ≤ c && c ≤ 'Z') || ('0' ≤ c && c ≤ '9') ||
  c = ' ' || c = ':' || c = '.' || c = ',' || c = '-'

/-- Embeds `clean_ocr_line` from the source: replace `O` and `Q` by `0`, the mojibake
em-dash by `-`, `=` by `-`, drop every character outside the allowed class,
then strip surrounding whitespace. -/
def clean_ocr_line (line : List Char) : List Char :=
  pyStrip (List.filter allowedChar
    (replaceChar '=' '-' (replaceEmdash
      (replaceChar 'Q' '0' (replaceChar 'O' '0' line)))))

/-- Digit/underscore tail of a Python integer literal: after a first digit,
underscores may appear singly and only between digits. -/
def digitsCore (acc : Nat) : List Char → Option Nat
  | [] => some acc
  | '_' :: c :: rest =>
      if c.isDigit then digitsCore (acc * 10 + (c.toNat - '0'.toNat)) rest
      else none
  | '_' :: [] => none
  | c :: rest =>
      if c.isDigit then digitsCore (acc * 10 + (c.toNat - '0'.toNat)) rest
      else none

/-- A nonempty run of ASCII digits (with Python's between-digit underscores). -/
def digitsRun : List Char → Option Nat
  | [] => none
  | c :: rest =>
      if c.isDigit then digitsCore (c.toNat - '0'.toNat) rest
      else none

/-- Python `int(s)` over ASCII text: surrounding whitespace, an optional sign,
then a nonempty digit run; anything else raises, modelled as `none`. -/
def pyInt (s : List Char) : Option Int :=
  match pyStrip s with
  | '-' :: rest => (digitsRun rest).map fun n => -(n : Int)
  | '+' :: rest => (digitsRun rest).map fun n => (n : Int)
  | rest => (digitsRun rest).map fun n => (n : Int)

/-- Embeds `parse_timestamp` from the source: with a `:` present, split on `:` and
unpack exactly two integer fields as minutes and seconds; otherwise convert
the whole string with `int`.  Any conversion or unpacking error is `none`. -/
def parse_timestamp (timestamp : List Char) : Option Int :=
  if timestamp.contains ':' then
    match pySplitOn ':' timestamp with
    | [m, s] => do
        let minutes ← pyInt m
        let seconds ← pyInt s
        some (minutes * 60 + seconds)
    | _ => none
  else pyInt timestamp

/-- One row of difflib's longest-match dynamic programme: given the character
`a i` of the first string, the pattern `b`, and the previous row shifted by one
(`p` is `0 :: prev`, so its head is the diagonal predecessor), produce the row
of run lengths ending at `(i, j)` for each position `j` of `b`. -/
def smRow (c : Char) : List Char → List Nat → List Nat
  | [], _ => []
  | bh :: bt, p => (if bh = c then p.headD 0 + 1 else 0) :: smRow c bt p.tail

/-- Scan one row for a new best block, in ascending `j`, replacing the best
only on a strictly larger run length — difflib's first-maximal tie-break.
The best is `(besti, bestj, bestsize)` with start positions. -/
def smBest (i : Nat) : Nat → List Nat → Nat × Nat × Nat → Nat × Nat × Nat
  | _, [], best => best
  | j, k :: row, best =>
      smBest i (j + 1) row
        (if best.2.2 < k then (i + 1 - k, j + 1 - k, k) else best)

/-- Row-by-row scan over the first string, ascending `i`, threading the
previous dynamic-programme row and the current best block. -/
def smScan (b : List Char) : Nat → List Nat → Nat × Nat × Nat →
    List Char → Nat × Nat × Nat
  | _, _, best, [] => best
  | i, prev, best, c :: arest =>
      smScan b (i + 1) (smRow c b (0 :: prev))
        (smBest i 0 (smRow c b (0 :: prev)) best) arest

/-- difflib `SequenceMatcher.find_longest_match` over whole strings (the map
has no junk: the second string is a short literal, so autojunk is inert).
Returns `(i, j, size)`: the first longest common substring in scan order. -/
def find_longest_match (a b : List Char) : Nat × Nat × Nat :=
  smScan b 0 [] (0, 0, 0) a

/-- Total size of difflib's matching blocks: recursively take the longest
match and recurse on the pieces strictly to its left and right, as
`get_matching_blocks` does; the fuel (sum of lengths at the top call)
dominates the recursion depth. -/
def smMatches : Nat → List Char → List Char → Nat
  | 0, _, _ => 0
  | fuel + 1, a, b =>
      match find_longest_match a b with
      | (i, j, k) =>
        if k = 0 then 0
        else
          (if 0 < i && 0 < j then smMatches fuel (a.take i) (b.take j) else 0)
          + k +
          (if i + k < a.length && j + k < b.length then
            smMatches fuel (a.drop (i + k)) (b.drop (j + k)) else 0)

/-- Embeds `fuzzy_match` from the source: `SequenceMatcher(None, text, pattern)
.ratio() > 0.6`.  The ratio is `2*M/T` with `M` the total matched size and
`T` the sum of lengths, so the float comparison is exactly `10*M > 3*T`
(an empty pair has ratio 1.0). -/
def fuzzy_match (text pattern : List Char) : Bool :=
  let total := text.length + pattern.length
  if total = 0 then true
  else decide (3 * total < 10 * smMatches total text pattern)

/-- The f-string of `parse_kill_list`:
`f"Time: {timestamp} | Name: {name} | Faction: {faction} | Weapon: {weapon}"`. -/
def formatRecord (timestamp name faction weapon : List Char) : List Char :=
  "Time: ".toList ++ timestamp ++ " | Name: ".toList ++ name ++
  " | Faction: ".toList ++ faction ++ " | Weapon: ".toList ++ weapon

/-- The positional field extraction of `parse_kill_list`: `parts[1]`,
`parts[2]`, `parts[4]`, `' '.join(parts[5:])`; an out-of-range index is a
Python `IndexError`, modelled as `none`. -/
def extractRecord (parts : List (List Char)) : Option (List Char) := do
  let timestamp ← parts[1]?
  let name ← parts[2]?
  let faction ← parts[4]?
  some (formatRecord timestamp name faction
    (List.intercalate [' '] (parts.drop 5)))

/-- The fixed map-name literal `"Customs"` of `parse_kill_list`. -/
def customsKeyword : List Char := "Customs".toList

/-- The fixed faction literal `"SCAV"` of `parse_kill_list`. -/
def scavKeyword : List Char := "SCAV".toList

/-- The body of `parse_kill_list`'s loop for one raw line: clean it, gate on
the two fuzzy matches, and under the 5-token guard extract the record.
`some none` is a silently dropped line, `some (some r)` an emitted record,
`none` an uncaught exception. -/
def processLine (line : List Char) : Option (Option (List Char)) :=
  let cleaned := clean_ocr_line line
  if fuzzy_match cleaned customsKeyword && fuzzy_match cleaned scavKeyword
  then
    let parts := pySplit cleaned
    if 5 ≤ parts.length then (extractRecord parts).map some
    else some none
  else some none

/-- The loop of `parse_kill_list`: process the lines in order, appending each
emitted record; an exception in any iteration aborts the whole call. -/
def collectRecords : List (List Char) → Option (List (List Char))
  | [] => some []
  | line :: rest =>
      match processLine line with
      | none => none
      | some none => collectRecords rest
      | some (some r) => (collectRecords rest).map fun rs => r :: rs

/-- Embeds `parse_kill_list` from the source: split the OCR text into lines and run
the loop. -/
def parse_kill_list (ocr_text : List Char) : Option (List (List Char)) :=
  collectRecords (pySplitlines ocr_text)

/-- Modelled from the spec (and only compared against the source definitions):
the record the spec says an accepted line with at least 5 tokens produces —
token 1 as timestamp, token 2 as name, token 4 as faction, tokens 5 onward
joined as weapon, tokens 0 and 3 skipped. -/
def specKillRecord (parts : List (List Char)) : List Char :=
  "Time: ".toList ++ parts.getD 1 [] ++ " | Name: ".toList ++ parts.getD 2 [] ++
  " | Faction: ".toList ++ parts.getD 4 [] ++ " | Weapon: ".toList ++
  List.intercalate [' '] (parts.drop 5)

/-! ## Basic lemmas about the string helpers -/

lemma contains_iff_mem (l : List Char) (c : Char) : l.contains c = true ↔ c ∈ l := by
  simp [List.contains, List.elem_iff]

lemma splitOnAux_of_not_mem (sep : Char) (acc l : List Char) (h : sep ∉ l) :
    splitOnAux sep acc l = [acc.reverse ++ l] := by
  induction l generalizing acc with
  | nil => simp [splitOnAux]
  | cons c t ih =>
      have hc : c ≠ sep := fun he => h (he ▸ List.mem_cons_self c t)
      have ht : sep ∉ t := fun hm => h (List.mem_cons_of_mem c hm)
      simp [splitOnAux, hc, ih _ ht]

lemma splitOnAux_sep (sep : Char) (s : List Char) (hs : sep ∉ s) :
    ∀ m acc : List Char, sep ∉ m →
      splitOnAux sep acc (m ++ sep :: s) = [acc.reverse ++ m, s] := by
  intro m
  induction m with
  | nil =>
      intro acc _
      simp [splitOnAux, splitOnAux_of_not_mem sep [] s hs]
  | cons c t ih =>
      intro acc hm
      have hc : c ≠ sep := fun he => hm (he ▸ List.mem_cons_self c t)
      have ht : sep ∉ t := fun hmem => hm (List.mem_cons_of_mem c hmem)
      simp [splitOnAux, hc, ih (c :: acc) ht]

lemma splitOn_sep (sep : Char) (m s : List Char) (hm : sep ∉ m) (hs : sep ∉ s) :
    pySplitOn sep (m ++ sep :: s) = [m, s] := by
  unfold pySplitOn
  simpa using splitOnAux_sep sep s hs m [] hm

/-- Helper: `parse_timestamp` on a string with exactly one colon separating
two strings accepted by `pyInt` is `minutes * 60 + seconds`. -/
lemma parse_timestamp_colon (m s : List Char) (mv sv : Int)
    (hm : ':' ∉ m) (hs : ':' ∉ s)
    (hmv : pyInt m = some mv) (hsv : pyInt s = some sv) :
    parse_timestamp (m ++ ':' :: s) = some (mv * 60 + sv) := by
  have hcont : (m ++ ':' :: s).contains ':' = true :=
    (contains_iff_mem _ _).2 (by simp)
  unfold parse_timestamp
  rw [if_pos hcont, splitOn_sep ':' m s hm hs]
  simp [hmv, hsv]

/-- Helper: `parse_timestamp` on a colon-free string is just `pyInt`. -/
lemma parse_timestamp_nocolon (t : List Char) (h : ':' ∉ t) :
    parse_timestamp t = pyInt t := by
  have hcont : t.contains ':' = false := by
    cases hc : t.contains ':'
    · rfl
    · exact absurd ((contains_iff_mem _ _).1 hc) h
  simp only [parse_timestamp, hcont, Bool.false_eq_true, if_false]

/-! ## Claims about `parse_timestamp` -/

/-- C2: `parse_timestamp "2:05" = 125` and `parse_timestamp "90" = 90`; in
general a `minutes:seconds` input yields `minutes * 60 + seconds` and a
colon-free numeric input yields that integer of seconds. -/
theorem c2_parse_timestamp_spec :
    parse_timestamp "2:05".toList = some 125 ∧
    parse_timestamp "90".toList = some 90 ∧
    (∀ (m s : List Char) (mv sv : Int), ':' ∉ m → ':' ∉ s →
      pyInt m = some mv → pyInt s = some sv →
      parse_timestamp (m ++ ':' :: s) = some (mv * 60 + sv)) ∧
    (∀ (t : List Char) (v : Int), ':' ∉ t → pyInt t = some v →
      parse_timestamp t = some v) := by
  refine ⟨by decide, by decide, parse_timestamp_colon, ?_⟩
  intro t v h hv
  rw [parse_timestamp_nocolon t h, hv]

/-- Witness for C2 at the concrete input `"3:07"`. -/
theorem c2_witness :
    parse_timestamp ("3".toList ++ ':' :: "07".toList) = some (3 * 60 + 7) :=
  c2_parse_timestamp_spec.2.2.1 "3".toList "07".toList 3 7
    (by decide) (by decide) (by decide) (by decide)

/-- C10: `parse_timestamp` performs no range validation on the seconds field:
any integer seconds component, including values of 60 or more and negative
values, contributes as `minutes * 60 + seconds`; in particular
`parse_timestamp "1:90" = 150`. -/
theorem c10_no_seconds_validation :
    (∀ (m s : List Char) (mv sv : Int), ':' ∉ m → ':' ∉ s →
      pyInt m = some mv → pyInt s = some sv →
      parse_timestamp (m ++ ':' :: s) = some (mv * 60 + sv)) ∧
    parse_timestamp "1:90".toList = some 150 := by
  exact ⟨parse_timestamp_colon, by decide⟩

/-- Witness for C10 at the concrete input `"0:-7"`: a negative seconds field
is accepted unchanged. -/
theorem c10_witness :
    parse_timestamp ("0".toList ++ ':' :: "-7".toList) = some (0 * 60 + (-7)) :=
  c10_no_seconds_validation.1 "0".toList "-7".toList 0 (-7)
    (by decide) (by decide) (by decide) (by decide)

/-! ## Claims about `clean_ocr_line` -/

/-- C5: `clean_ocr_line "O1:Q5=Customs" = "01:05-Customs"`: the letters `O`
and `Q` become the digit `0` and `=` becomes `-`. -/
theorem c5_clean_example :
    clean_ocr_line "O1:Q5=Customs".toList = "01:05-Customs".toList := by
  decide

/-! ## Claims about the fuzzy gate and the positional extraction -/

/-- C3: every line is accepted as a candidate kill record only if its cleaned
form has a whole-string similarity ratio strictly over 0.6 against both the
literal `"Customs"` and the literal `"SCAV"`; a line fuzzy-matching either
keyword badly contributes nothing to the output. -/
theorem c3_fuzzy_gate :
    (∀ line : List Char,
      processLine line = some none ∨
        (fuzzy_match (clean_ocr_line line) customsKeyword = true ∧
         fuzzy_match (clean_ocr_line line) scavKeyword = true)) ∧
    (∀ line : List Char,
      (fuzzy_match (clean_ocr_line line) customsKeyword = false ∨
       fuzzy_match (clean_ocr_line line) scavKeyword = false) →
      processLine line = some none) := by
  have drop : ∀ line : List Char,
      (fuzzy_match (clean_ocr_line line) customsKeyword = false ∨
       fuzzy_match (clean_ocr_line line) scavKeyword = false) →
      processLine line = some none := by
    intro line h
    rcases h with h | h <;> simp [processLine, h]
  refine ⟨?_, drop⟩
  intro line
  cases h1 : fuzzy_match (clean_ocr_line line) customsKeyword
  · exact Or.inl (drop line (Or.inl h1))
  · cases h2 : fuzzy_match (clean_ocr_line line) scavKeyword
    · exact Or.inl (drop line (Or.inr h2))
    · exact Or.inr ⟨rfl, rfl⟩

set_option maxRecDepth 8000 in
/-- Witness for C3: `"hello"` fuzzy-matches neither keyword and is dropped. -/
theorem c3_witness : processLine "hello".toList = some none :=
  c3_fuzzy_gate.2 "hello".toList (Or.inl (by decide))

/-- C4: a line passing both fuzzy matches whose cleaned form splits into
fewer than 5 whitespace tokens is silently dropped: no record, no error. -/
theorem c4_short_line_dropped (line : List Char)
    (h1 : fuzzy_match (clean_ocr_line line) customsKeyword = true)
    (h2 : fuzzy_match (clean_ocr_line line) scavKeyword = true)
    (h5 : (pySplit (clean_ocr_line line)).length < 5) :
    processLine line = some none := by
  have h5n : ¬ 5 ≤ (pySplit (clean_ocr_line line)).length := by omega
  simp [processLine, h1, h2, h5n]

set_option maxRecDepth 8000 in
/-- Witness for C4: `"SCAVstoms"` passes both fuzzy matches (ratios 8/13 and
12/16) but is a single token, so it is dropped without error. -/
theorem c4_witness : processLine "SCAVstoms".toList = some none :=
  c4_short_line_dropped "SCAVstoms".toList (by decide) (by decide) (by decide)

/-- Helper: under the 5-token guard the positional extraction succeeds and
produces exactly the spec's record. -/
lemma extractRecord_of_length (parts : List (List Char)) (h : 5 ≤ parts.length) :
    extractRecord parts = some (specKillRecord parts) := by
  rcases parts with _ | ⟨p0, _ | ⟨p1, _ | ⟨p2, _ | ⟨p3, _ | ⟨p4, rest⟩⟩⟩⟩⟩
  · simp at h
  · simp at h
  · simp at h
  · simp at h
  · simp at h
  · simp [extractRecord, specKillRecord, formatRecord]

/-- C1: for every line, the processing step is exactly: when the cleaned line
passes both fuzzy matches and splits into at least 5 tokens, emit the record
`Time: tokens[1] | Name: tokens[2] | Faction: tokens[4] | Weapon:
join(tokens[5:])` (tokens 0 and 3 skipped); otherwise emit nothing. -/
theorem c1_positional_extraction (line : List Char) :
    processLine line =
      some (if fuzzy_match (clean_ocr_line line) customsKeyword &&
               fuzzy_match (clean_ocr_line line) scavKeyword then
              if 5 ≤ (pySplit (clean_ocr_line line)).length then
                some (specKillRecord (pySplit (clean_ocr_line line)))
              else none
            else none) := by
  cases h1 : fuzzy_match (clean_ocr_line line) customsKeyword
  · simp [processLine, h1]
  · cases h2 : fuzzy_match (clean_ocr_line line) scavKeyword
    · simp [processLine, h1, h2]
    · by_cases h5 : 5 ≤ (pySplit (clean_ocr_line line)).length
      · simp [processLine, h1, h2, h5, extractRecord_of_length _ h5]
      · simp [processLine, h1, h2, h5]

/-! ## Lemmas about `clean_ocr_line`: lengths, character sets, idempotence -/

lemma length_lstrip_le (l : List Char) : (lstrip l).length ≤ l.length := by
  induction l with
  | nil => simp [lstrip]
  | cons c t ih =>
      by_cases hc : isPySpace c = true
      · simp [lstrip, hc]
        omega
      · simp [lstrip, hc]

lemma rstrip_cons (c : Char) (t : List Char) :
    rstrip (c :: t) =
      match rstrip t with
      | [] => if isPySpace c then [] else [c]
      | r => c :: r := rfl

lemma length_rstrip_le (l : List Char) : (rstrip l).length ≤ l.length := by
  induction l with
  | nil => simp [rstrip]
  | cons c t ih =>
      rw [rstrip_cons]
      cases h : rstrip t with
      | nil =>
          by_cases hc : isPySpace c = true <;> simp [hc]
      | cons r rs =>
          rw [h] at ih
          simpa using ih

lemma length_pyStrip_le (l : List Char) : (pyStrip l).length ≤ l.length :=
  le_trans (length_rstrip_le (lstrip l)) (length_lstrip_le l)

lemma mem_lstrip {c : Char} {l : List Char} (h : c ∈ lstrip l) : c ∈ l := by
  induction l with
  | nil => simp [lstrip] at h
  | cons d t ih =>
      by_cases hd : isPySpace d = true
      · rw [lstrip, if_pos hd] at h
        exact List.mem_cons_of_mem d (ih h)
      · rwa [lstrip, if_neg hd] at h

lemma mem_rstrip {c : Char} {l : List Char} (h : c ∈ rstrip l) : c ∈ l := by
  induction l with
  | nil => simp [rstrip] at h
  | cons d t ih =>
      rw [rstrip_cons] at h
      cases hr : rstrip t with
      | nil =>
          rw [hr] at h
          by_cases hd : isPySpace d = true
          · rw [if_pos hd] at h
            simp at h
          · rw [if_neg hd] at h
            simp at h
            simp [h]
      | cons r rs =>
          rw [hr] at h
          rcases List.mem_cons.1 h with h1 | h1
          · simp [h1]
          · exact List.mem_cons_of_mem d (ih (hr ▸ h1))

lemma mem_pyStrip {c : Char} {l : List Char} (h : c ∈ pyStrip l) : c ∈ l :=
  mem_lstrip (mem_rstrip h)

lemma length_replaceChar (a b : Char) (l : List Char) :
    (replaceChar a b l).length = l.length := by
  simp [replaceChar]

lemma mem_replaceChar {a b c : Char} {l : List Char}
    (h : c ∈ replaceChar a b l) : c ∈ l ∨ c = b := by
  rcases List.mem_map.1 h with ⟨d, hd, he⟩
  by_cases hda : d = a
  · simp [hda] at he
    exact Or.inr he.symm
  · simp [hda] at he
    exact Or.inl (he ▸ hd)

lemma not_mem_replaceChar {a b : Char} (hab : a ≠ b) (l : List Char) :
    a ∉ replaceChar a b l := by
  intro h
  rcases List.mem_map.1 h with ⟨d, _, he⟩
  by_cases hda : d = a
  · simp [hda] at he
    exact hab he.symm
  · simp [hda] at he

lemma replaceChar_eq_self {a : Char} (b : Char) {l : List Char} (h : a ∉ l) :
    replaceChar a b l = l := by
  induction l with
  | nil => rfl
  | cons c t ih =>
      have hc : c ≠ a := fun he => h (he ▸ List.mem_cons_self c t)
      have ht : a ∉ t := fun hm => h (List.mem_cons_of_mem c hm)
      simp only [replaceChar, List.map_cons, if_neg hc]
      exact congrArg (c :: ·) (ih ht)

lemma length_replaceEmdash_le (l : List Char) :
    (replaceEmdash l).length ≤ l.length := by
  induction l using replaceEmdash.induct with
  | case1 rest ih => simp [replaceEmdash]; omega
  | case2 c rest hne ih => simp [replaceEmdash]; omega
  | case3 => simp [replaceEmdash]

lemma mem_replaceEmdash {c : Char} {l : List Char} (h : c ∈ replaceEmdash l) :
    c ∈ l ∨ c = '-' := by
  induction l using replaceEmdash.induct with
  | case1 rest ih =>
      rw [replaceEmdash] at h
      rcases List.mem_cons.1 h with h1 | h1
      · exact Or.inr h1
      · rcases ih h1 with h2 | h2
        · exact Or.inl (by simp [h2])
        · exact Or.inr h2
  | case2 d rest hne ih =>
      rw [replaceEmdash.eq_2 d rest hne] at h
      rcases List.mem_cons.1 h with h1 | h1
      · exact Or.inl (by simp [h1])
      · rcases ih h1 with h2 | h2
        · exact Or.inl (List.mem_cons_of_mem d h2)
        · exact Or.inr h2
  | case3 =>
      rw [replaceEmdash] at h
      simp at h

lemma replaceEmdash_eq_self {l : List Char} (h : 'â' ∉ l) :
    replaceEmdash l = l := by
  induction l using replaceEmdash.induct with
  | case1 rest ih => exact absurd (by simp) h
  | case2 d rest hne ih =>
      have ht : 'â' ∉ rest := fun hm => h (List.mem_cons_of_mem d hm)
      rw [replaceEmdash.eq_2 d rest hne, ih ht]
  | case3 => rfl

lemma lstrip_lstrip (l : List Char) : lstrip (lstrip l) = lstrip l := by
  induction l with
  | nil => rfl
  | cons c t ih =>
      by_cases hc : isPySpace c = true
      · rw [lstrip, if_pos hc, ih]
      · rw [lstrip, if_neg hc, lstrip, if_neg hc]

lemma rstrip_rstrip (l : List Char) : rstrip (rstrip l) = rstrip l := by
  induction l with
  | nil => rfl
  | cons c t ih =>
      rw [rstrip_cons]
      cases hr : rstrip t with
      | nil =>
          by_cases hc : isPySpace c = true
          · rw [if_pos hc]
            rfl
          · rw [if_neg hc, rstrip_cons]
            simp [rstrip, hc]
      | cons r rs =>
          rw [hr] at ih
          rw [rstrip_cons, ih]

lemma lstrip_rstrip {l : List Char} (h : lstrip l = l) :
    lstrip (rstrip l) = rstrip l := by
  cases l with
  | nil => rfl
  | cons c t =>
      have hc : isPySpace c = false := by
        by_contra hcc
        rw [lstrip, if_pos (by simpa using hcc)] at h
        have := length_lstrip_le t
        have := congrArg List.length h
        simp at this
        omega
      rw [rstrip_cons]
      cases hr : rstrip t with
      | nil =>
          rw [hc]
          simp [lstrip, hc]
      | cons r rs => simp [lstrip, hc]

lemma pyStrip_idem (l : List Char) : pyStrip (pyStrip l) = pyStrip l := by
  unfold pyStrip
  rw [lstrip_rstrip (lstrip_lstrip l), rstrip_rstrip]

lemma clean_all_allowed {c : Char} {line : List Char}
    (h : c ∈ clean_ocr_line line) : allowedChar c = true :=
  (List.mem_filter.1 (mem_pyStrip h)).2

lemma clean_no_O (line : List Char) : 'O' ∉ clean_ocr_line line := by
  intro h
  have h2 := (List.mem_filter.1 (mem_pyStrip h)).1
  rcases mem_replaceChar h2 with h3 | h3
  · rcases mem_replaceEmdash h3 with h4 | h4
    · rcases mem_replaceChar h4 with h5 | h5
      · exact not_mem_replaceChar (by decide) line h5
      · exact absurd h5 (by decide)
    · exact absurd h4 (by decide)
  · exact absurd h3 (by decide)

lemma clean_no_Q (line : List Char) : 'Q' ∉ clean_ocr_line line := by
  intro h
  have h2 := (List.mem_filter.1 (mem_pyStrip h)).1
  rcases mem_replaceChar h2 with h3 | h3
  · rcases mem_replaceEmdash h3 with h4 | h4
    · exact not_mem_replaceChar (by decide) _ h4
    · exact absurd h4 (by decide)
  · exact absurd h3 (by decide)

lemma pyStrip_clean (line : List Char) :
    pyStrip (clean_ocr_line line) = clean_ocr_line line := by
  unfold clean_ocr_line
  exact pyStrip_idem _

/-! ## Claims about `clean_ocr_line` as a whole -/

/-- C7: the cleaned line is never longer than the input, and every character
of it lies in the allowed class (letters, digits, space, colon, period,
comma, hyphen). -/
theorem c7_clean_shrinks_and_charset (line : List Char) :
    (clean_ocr_line line).length ≤ line.length ∧
    (clean_ocr_line line).all allowedChar = true := by
  constructor
  · have h1 := length_pyStrip_le (List.filter allowedChar
      (replaceChar '=' '-' (replaceEmdash
        (replaceChar 'Q' '0' (replaceChar 'O' '0' line)))))
    have h2 := List.length_filter_le allowedChar
      (replaceChar '=' '-' (replaceEmdash
        (replaceChar 'Q' '0' (replaceChar 'O' '0' line))))
    have h3 := length_replaceEmdash_le (replaceChar 'Q' '0' (replaceChar 'O' '0' line))
    have h4 := length_replaceChar '=' '-' (replaceEmdash
      (replaceChar 'Q' '0' (replaceChar 'O' '0' line)))
    have h5 := length_replaceChar 'Q' '0' (replaceChar 'O' '0' line)
    have h6 := length_replaceChar 'O' '0' line
    unfold clean_ocr_line
    omega
  · rw [List.all_eq_true]
    intro c hc
    exact clean_all_allowed hc

/-- C6: `clean_ocr_line` is idempotent: cleaning an already cleaned line
changes nothing. -/
theorem c6_clean_idempotent (s : List Char) :
    clean_ocr_line (clean_ocr_line s) = clean_ocr_line s := by
  have hO : 'O' ∉ clean_ocr_line s := clean_no_O s
  have hQ : 'Q' ∉ clean_ocr_line s := clean_no_Q s
  have hA : 'â' ∉ clean_ocr_line s :=
    fun hm => absurd (clean_all_allowed hm) (by decide)
  have hE : '=' ∉ clean_ocr_line s :=
    fun hm => absurd (clean_all_allowed hm) (by decide)
  have hall : ∀ c ∈ clean_ocr_line s, allowedChar c = true :=
    fun _ hc => clean_all_allowed hc
  conv_lhs => rw [clean_ocr_line]
  rw [replaceChar_eq_self '0' hO, replaceChar_eq_self '0' hQ,
    replaceEmdash_eq_self hA, replaceChar_eq_self '-' hE,
    List.filter_eq_self.2 hall, pyStrip_clean]

/-! ## Totality and per-line structure of `parse_kill_list` -/

/-- Helper: the per-line step never raises: the positional indexing is guarded
by the 5-token length check. -/
lemma processLine_ne_none (line : List Char) : processLine line ≠ none := by
  unfold processLine
  by_cases hb : (fuzzy_match (clean_ocr_line line) customsKeyword &&
      fuzzy_match (clean_ocr_line line) scavKeyword) = true
  · rw [if_pos hb]
    by_cases h5 : 5 ≤ (pySplit (clean_ocr_line line)).length
    · rw [if_pos h5, extractRecord_of_length _ h5]
      simp
    · rw [if_neg h5]
      simp
  · rw [if_neg hb]
    simp

/-- Helper: the loop of `parse_kill_list` is the order-preserving filter-map
of the per-line step. -/
lemma collectRecords_eq (ls : List (List Char)) :
    collectRecords ls =
      some (ls.filterMap fun l => (processLine l).getD none) := by
  induction ls with
  | nil => rfl
  | cons line rest ih =>
      rw [collectRecords]
      cases hp : processLine line with
      | none => exact absurd hp (processLine_ne_none line)
      | some o =>
          cases o with
          | none => simp [List.filterMap_cons, hp, ih]
          | some r => simp [List.filterMap_cons, hp, ih]

/-- C9: `parse_kill_list` is total: on every input text (empty, token-poor or
arbitrary lines included) it returns a list and never raises, because the
positional indexing is guarded by the length check. -/
theorem c9_parse_kill_list_total (ocr_text : List Char) :
    (parse_kill_list ocr_text).isSome = true := by
  unfold parse_kill_list
  rw [collectRecords_eq]
  rfl

/-- C8: `parse_kill_list` emits zero or one record per input line, in scan
order: its output is exactly the order-preserving filter-map of the per-line
step over the split lines of the text. -/
theorem c8_scan_order (ocr_text : List Char) :
    parse_kill_list ocr_text =
      some ((pySplitlines ocr_text).filterMap
        fun l => (processLine l).getD none) := by
  unfold parse_kill_list
  exact collectRecords_eq _

end Autoclipper
